import Mathlib

/-!
Verification of `scripts/update_readme.py` (skill-table README generator).

The script is embedded shallowly:

* File contents are `List Char` / `String`; Python string operations are
  translated to explicit recursive functions on character lists.
* The anchored regular expression used to locate YAML frontmatter,
  `^---\s*\n(.*?)\n---\s*\n` (DOTALL), is embedded as an executable
  backtracking matcher that follows the engine's preference order
  (greedy whitespace with backtracking, lazy group).
* `yaml.safe_load` belongs to an external library, so the extractor is
  parameterised by a decoder `List Char → Except Unit PyValue`; `PyValue`
  mirrors the Python values the decoder can produce and `PyValue.truthy`
  mirrors Python truthiness (used by the `or \x7b\x7d` fallback).
* Impure inputs are made explicit: the discovered files (path together
  with decoded frontmatter) are a parameter of `mainRun`, and the wall
  clock timestamp is a `String` parameter of `generate_readme`.
* The in-place `skills.sort(key=lambda x: x['name'].lower())` is state
  passing: `generate_readme` returns the README text together with the
  final contents of the caller's list.  Python's stable sort is embedded
  as a stable insertion sort on the same key (extensionally equal to any
  stable sort by that key).
* ASCII case folding models `str.lower()`; only ASCII data is relevant
  to the trigger words and comparisons performed by the script.
-/

namespace UpdateReadme

/-- Python `\s` for the ASCII range: space, tab, newline, carriage
return, vertical tab, form feed. -/
def isPySpace (c : Char) : Bool :=
  c == ' ' || c == '\t' || c == '\n' || c == '\r' || c == '\x0b' || c == '\x0c'

/-- All ways to consume `\s*\n` at the head of the input, listed in the
regex engine's preference order (greedy `\s*`, so longest first).  Each
element is the remainder of the input after the consumed prefix. -/
def wsNlSplits : List Char → List (List Char)
  | [] => []
  | c :: cs =>
    if c == '\n' then wsNlSplits cs ++ [cs]
    else if isPySpace c then wsNlSplits cs
    else []

/-- Does `\n---\s*\n` match at the head of the input?  This is the
closing part of the frontmatter pattern, after the lazy group. -/
def closeHere : List Char → Bool
  | a :: b :: c :: d :: rest =>
    a == '\n' && b == '-' && c == '-' && d == '-' && !(wsNlSplits rest).isEmpty
  | _ => false

/-- The lazy group `(.*?)` (DOTALL): the shortest prefix after which
`\n---\s*\n` matches; returns that prefix (the captured group). -/
def lazyGroup : List Char → Option (List Char)
  | [] => none
  | c :: cs => if closeHere (c :: cs) then some [] else (lazyGroup cs).map (fun g => c :: g)

/-- Backtracking over the candidate remainders of the opening
`\s*\n`: take the first candidate on which the rest of the pattern
matches. -/
def firstSome (f : List Char → Option (List Char)) : List (List Char) → Option (List Char)
  | [] => none
  | u :: us =>
    match f u with
    | some g => some g
    | none => firstSome f us

/-- `re.match(r'^---\s*\n(.*?)\n---\s*\n', content, re.DOTALL)`:
anchored at the start, returns the captured group when the pattern
matches. -/
def reMatchFrontmatter : List Char → Option (List Char)
  | a :: b :: c :: t =>
    if a == '-' && b == '-' && c == '-' then firstSome lazyGroup (wsNlSplits t) else none
  | _ => none

/-- Values `yaml.safe_load` may return, as far as this script can
observe them. -/
inductive PyValue where
  | pynone
  | pybool (b : Bool)
  | pyint (n : Int)
  | str (s : String)
  | list (xs : List PyValue)
  | dict (entries : List (String × PyValue))

/-- Python truthiness of a decoded value, used by the
`safe_load(text) or \x7b\x7d` fallback. -/
def PyValue.truthy : PyValue → Bool
  | .pynone => false
  | .pybool b => b
  | .pyint n => n != 0
  | .str s => s != ""
  | .list xs => !xs.isEmpty
  | .dict entries => !entries.isEmpty

/-- `parse_frontmatter`: locate the frontmatter block with the anchored
regex; with no match return an empty dict; otherwise decode the captured
group, mapping a decoding error to an empty dict and a falsy result to
an empty dict (the `or \x7b\x7d`).  `safeLoad` stands for the external
`yaml.safe_load`. -/
def parse_frontmatter (safeLoad : List Char → Except Unit PyValue)
    (content : List Char) : PyValue :=
  match reMatchFrontmatter content with
  | none => PyValue.dict []
  | some frontmatterText =>
    match safeLoad frontmatterText with
    | Except.ok v => if v.truthy then v else PyValue.dict []
    | Except.error _ => PyValue.dict []

/-- ASCII case folding of one character, modelling `str.lower()` on the
data this script handles. -/
def pyToLowerChar (c : Char) : Char :=
  if 'A' ≤ c ∧ c ≤ 'Z' then Char.ofNat (c.toNat + 32) else c

/-- `s.lower()` (ASCII). -/
def lowerStr (s : String) : String :=
  String.mk (s.data.map pyToLowerChar)

/-- Is the first list a leading segment of the second? -/
def leadsList : List Char → List Char → Bool
  | [], _ => true
  | _ :: _, [] => false
  | a :: as, b :: bs => a == b && leadsList as bs

/-- Python `needle in haystack` on strings: substring containment. -/
def isSubstr (needle : List Char) : List Char → Bool
  | [] => leadsList needle []
  | c :: cs => leadsList needle (c :: cs) || isSubstr needle cs

/-- The trigger words of `is_auto_invoked`. -/
def keywords : List String := ["always", "automatically", "every"]

/-- `is_auto_invoked`: empty description is not auto-invoked, otherwise
check whether any trigger word occurs in the lowered description. -/
def is_auto_invoked (description : String) : Bool :=
  if description = "" then false
  else keywords.any (fun keyword => isSubstr keyword.data (lowerStr description).data)

/-- `generate_command`: the Command cell for one skill. -/
def generate_command (skill_name : String) (description : String) : String :=
  if is_auto_invoked description then "Auto-invoked" else "/" ++ skill_name

/-- `description.replace('|', '\\|')`: the needle is a single
character, so replacement is a left-to-right scan. -/
def escapePipes : List Char → List Char
  | [] => []
  | c :: cs => if c == '|' then '\\' :: '|' :: escapePipes cs else c :: escapePipes cs

/-- One skill record, as built by `main` from a frontmatter mapping. -/
structure Skill where
  name : String
  description : String
  path : String
deriving DecidableEq

/-- Python `s <= t` on strings: lexicographic comparison of code
points, a proper prefix being smaller. -/
def lexLe : List Char → List Char → Bool
  | [], _ => true
  | _ :: _, [] => false
  | a :: as, b :: bs =>
    if a.toNat < b.toNat then true
    else if b.toNat < a.toNat then false
    else lexLe as bs

/-- Stable insertion: `x` is placed before the first element whose key
is at least the key of `x`, so equal keys keep their relative order. -/
def insertByKey (key : Skill → List Char) (x : Skill) : List Skill → List Skill
  | [] => [x]
  | y :: ys => if lexLe (key x) (key y) then x :: y :: ys else y :: insertByKey key x ys

/-- Stable sort by key (extensionally the semantics of Python's
`list.sort(key=...)`, which is a stable ascending sort by key). -/
def sortByKey (key : Skill → List Char) : List Skill → List Skill
  | [] => []
  | x :: xs => insertByKey key x (sortByKey key xs)

/-- `skills.sort(key=lambda x: x['name'].lower())`. -/
def sortSkills (skills : List Skill) : List Skill :=
  sortByKey (fun s => (lowerStr s.name).data) skills

/-- One table row of the README, as built in the loop of
`generate_readme`. -/
def renderRow (skill : Skill) : String :=
  let command := generate_command skill.name skill.description
  let description := String.mk (escapePipes skill.description.data)
  let skill_link := "[" ++ skill.name ++ "](" ++ skill.path ++ ")"
  "| " ++ skill_link ++ " | " ++ description ++ " | " ++ command ++ " |\n"

/-- The fixed header block of the README. -/
def readmeHeader : String :=
  "# Skills\n\nThis repository contains Claude Code skills. The README is automatically generated from skill definitions.\n\n## Available Skills\n\n| Skill | Description | Command |\n|-------|-------------|---------|\n"

/-- The footer appended after the rows; `timestamp` stands for the
already formatted `datetime.now(timezone.utc).strftime(...)` string. -/
def footerString (timestamp : String) : String :=
  "\n---\n*Last updated: " ++ timestamp ++ "*\n"

/-- `generate_readme`: sorts the caller's list in place (returned as the
second component), renders header, one row per skill, and the footer. -/
def generate_readme (skills : List Skill) (timestamp : String) : String × List Skill :=
  let sorted := sortSkills skills
  let body := sorted.foldl (fun readme skill => readme ++ renderRow skill) readmeHeader
  (body ++ footerString timestamp, sorted)

/-- A decoded frontmatter mapping, restricted to the string-valued
entries the script consumes. -/
abbrev Fm := List (String × String)

/-- Python `key in mapping`. -/
def hasKey (fm : Fm) (k : String) : Bool :=
  fm.any (fun p => p.1 == k)

/-- Python `mapping[key]` for a present key (first matching entry). -/
def getKey (fm : Fm) (k : String) : String :=
  ((fm.find? (fun p => p.1 == k)).map (fun p => p.2)).getD ""

/-- The filter of `main`: `'name' in frontmatter and 'description' in
frontmatter`. -/
def passKeys (fm : Fm) : Bool :=
  hasKey fm "name" && hasKey fm "description"

/-- The record `main` appends for a passing file (path, frontmatter). -/
def mkSkill (file : String × Fm) : Skill :=
  { name := getKey file.2 "name"
    description := getKey file.2 "description"
    path := file.1 }

/-- The one diagnostic line `main` prints for each discovered file. -/
def fileDiag (file : String × Fm) : String :=
  if passKeys file.2 then "Found skill: " ++ getKey file.2 "name"
  else "Warning: " ++ file.1 ++ " missing name or description in frontmatter"

/-- The per-file loop of `main`: accumulate the skill records of the
passing files and one diagnostic per file, in discovery order. -/
def buildLoop : List (String × Fm) → List Skill × List String
  | [] => ([], [])
  | file :: files =>
    let rest := buildLoop files
    if passKeys file.2 then
      (mkSkill file :: rest.1, ("Found skill: " ++ getKey file.2 "name") :: rest.2)
    else
      (rest.1, ("Warning: " ++ file.1 ++ " missing name or description in frontmatter") :: rest.2)

/-- `main`, over the discovered files (each path paired with its decoded
frontmatter mapping) and the formatted timestamp.  Returns the printed
lines and the content written to `README.md` (`none` when no write
happens). -/
def mainRun (files : List (String × Fm)) (timestamp : String) :
    List String × Option String :=
  if files.isEmpty then (["No skill files found."], none)
  else
    let built := buildLoop files
    if built.1.isEmpty then (built.2 ++ ["No valid skills found."], none)
    else
      let readme := generate_readme built.1 timestamp
      (built.2 ++ ["\nGenerated README.md with " ++ toString built.1.length ++ " skill(s)"],
       some readme.1)

/-- Every character of the list is whitespace. -/
def allWs (w : List Char) : Prop := ∀ c ∈ w, isPySpace c = true

/-- Spec wording of claim C7: a frontmatter block is located exactly
when the content starts with a line consisting solely of three hyphens,
followed by content, followed by another such line, with leading or
trailing whitespace around the marker lines allowed — including
whitespace before the first marker. -/
def claimedLocate (cs : List Char) : Prop :=
  ∃ lead w1 g w2 rest, allWs lead ∧ allWs w1 ∧ allWs w2 ∧
    cs = lead ++ '-' :: '-' :: '-' ::
      (w1 ++ '\n' :: (g ++ '\n' :: '-' :: '-' :: '-' :: (w2 ++ '\n' :: rest)))

/-- What the anchored regex actually accepts: as `claimedLocate`, but
the first marker must stand at the very start of the content (no
leading whitespace before it), and the closing marker line must be
terminated by a newline present in the content. -/
def matchedSpec (cs : List Char) : Prop :=
  ∃ w1 g w2 rest, allWs w1 ∧ allWs w2 ∧
    cs = '-' :: '-' :: '-' ::
      (w1 ++ '\n' :: (g ++ '\n' :: '-' :: '-' :: '-' :: (w2 ++ '\n' :: rest)))

/-- Spec wording of claim C1's inclusion condition: both required keys
present with non-empty values. -/
def passKeysNonEmpty (fm : Fm) : Bool :=
  hasKey fm "name" && hasKey fm "description" &&
    !(getKey fm "name" == "") && !(getKey fm "description" == "")

/-- Spec wording of claim C3: every pipe becomes backslash-pipe and
every other character is kept unchanged. -/
def escapePipesSpec (cs : List Char) : List Char :=
  cs.flatMap (fun c => if c == '|' then ['\\', '|'] else [c])

/-! ### Helper lemmas about the stable sort -/

theorem lexLe_refl (as : List Char) : lexLe as as = true := by
  induction as with
  | nil => rfl
  | cons a as ih => rw [lexLe, if_neg (Nat.lt_irrefl _), if_neg (Nat.lt_irrefl _)]; exact ih

theorem lexLe_total : ∀ as bs : List Char, lexLe as bs = false → lexLe bs as = true := by
  intro as
  induction as with
  | nil =>
    intro bs h
    simp [lexLe] at h
  | cons a as ih =>
    intro bs h
    cases bs with
    | nil => rfl
    | cons b bs =>
      rw [lexLe] at h ⊢
      by_cases hab : a.toNat < b.toNat
      · rw [if_pos hab] at h
        simp at h
      · rw [if_neg hab] at h
        by_cases hba : b.toNat < a.toNat
        · rw [if_pos hba]
        · rw [if_neg hba] at h
          rw [if_neg hba, if_neg hab]
          exact ih bs h

theorem lexLe_trans : ∀ as bs cs : List Char,
    lexLe as bs = true → lexLe bs cs = true → lexLe as cs = true := by
  intro as
  induction as with
  | nil => intro bs cs _ _; rfl
  | cons a as ih =>
    intro bs cs h1 h2
    cases bs with
    | nil => simp [lexLe] at h1
    | cons b bs =>
      cases cs with
      | nil => simp [lexLe] at h2
      | cons c cs =>
        rw [lexLe] at h1 h2 ⊢
        by_cases hab : a.toNat < b.toNat
        · rw [if_pos hab] at h1
          by_cases hbc : b.toNat < c.toNat
          · rw [if_pos (by omega : a.toNat < c.toNat)]
          · rw [if_neg hbc] at h2
            by_cases hcb : c.toNat < b.toNat
            · rw [if_pos hcb] at h2
              simp at h2
            · rw [if_pos (by omega : a.toNat < c.toNat)]
        · rw [if_neg hab] at h1
          by_cases hba : b.toNat < a.toNat
          · rw [if_pos hba] at h1
            simp at h1
          · rw [if_neg hba] at h1
            by_cases hbc : b.toNat < c.toNat
            · rw [if_pos (by omega : a.toNat < c.toNat)]
            · rw [if_neg hbc] at h2
              by_cases hcb : c.toNat < b.toNat
              · rw [if_pos hcb] at h2
                simp at h2
              · rw [if_neg hcb] at h2
                rw [if_neg (by omega : ¬ a.toNat < c.toNat),
                  if_neg (by omega : ¬ c.toNat < a.toNat)]
                exact ih bs cs h1 h2

theorem lexLe_of_ne_true (as bs : List Char) (h : ¬ lexLe as bs = true) :
    lexLe bs as = true :=
  lexLe_total as bs (eq_false_of_ne_true h)

theorem ne_of_lexLe_ne_true (as bs : List Char) (h : ¬ lexLe as bs = true) : bs ≠ as := by
  intro he
  subst he
  exact h (lexLe_refl _)

theorem mem_insertByKey (key : Skill → List Char) (x z : Skill) (l : List Skill) :
    z ∈ insertByKey key x l ↔ z = x ∨ z ∈ l := by
  induction l with
  | nil => simp [insertByKey]
  | cons y ys ih =>
    by_cases h : lexLe (key x) (key y) = true
    · simp [insertByKey, h, List.mem_cons]
    · simp only [insertByKey, if_neg h, List.mem_cons, ih]
      tauto

theorem insertByKey_perm (key : Skill → List Char) (x : Skill) (l : List Skill) :
    (insertByKey key x l).Perm (x :: l) := by
  induction l with
  | nil => exact List.Perm.refl _
  | cons y ys ih =>
    by_cases h : lexLe (key x) (key y) = true
    · simp only [insertByKey, if_pos h]
      exact List.Perm.refl _
    · simp only [insertByKey, if_neg h]
      exact (ih.cons y).trans (List.Perm.swap x y ys)

theorem sortByKey_perm (key : Skill → List Char) (l : List Skill) :
    (sortByKey key l).Perm l := by
  induction l with
  | nil => exact List.Perm.refl _
  | cons x xs ih => exact (insertByKey_perm key x _).trans (ih.cons x)

theorem pairwise_insertByKey (key : Skill → List Char) (x : Skill) (l : List Skill)
    (h : l.Pairwise (fun a b => lexLe (key a) (key b) = true)) :
    (insertByKey key x l).Pairwise (fun a b => lexLe (key a) (key b) = true) := by
  induction l with
  | nil => simp [insertByKey, List.pairwise_cons]
  | cons y ys ih =>
    rw [List.pairwise_cons] at h
    by_cases hxy : lexLe (key x) (key y) = true
    · simp only [insertByKey, if_pos hxy]
      refine List.Pairwise.cons ?_ (List.Pairwise.cons h.1 h.2)
      intro z hz
      rcases List.mem_cons.mp hz with rfl | hz
      · exact hxy
      · exact lexLe_trans _ _ _ hxy (h.1 z hz)
    · simp only [insertByKey, if_neg hxy]
      refine List.Pairwise.cons ?_ (ih h.2)
      intro z hz
      rcases (mem_insertByKey key x z ys).mp hz with rfl | hz
      · exact lexLe_of_ne_true _ _ hxy
      · exact h.1 z hz

theorem sortByKey_pairwise (key : Skill → List Char) (l : List Skill) :
    (sortByKey key l).Pairwise (fun a b => lexLe (key a) (key b) = true) := by
  induction l with
  | nil => simp [sortByKey]
  | cons x xs ih => exact pairwise_insertByKey key x _ ih

theorem sortByKey_of_pairwise (key : Skill → List Char) (l : List Skill)
    (h : l.Pairwise (fun a b => lexLe (key a) (key b) = true)) : sortByKey key l = l := by
  induction l with
  | nil => rfl
  | cons x xs ih =>
    rw [List.pairwise_cons] at h
    rw [sortByKey, ih h.2]
    cases xs with
    | nil => rfl
    | cons y ys => rw [insertByKey, if_pos (h.1 y (List.mem_cons_self y ys))]

theorem sortSkills_idem (skills : List Skill) :
    sortSkills (sortSkills skills) = sortSkills skills :=
  sortByKey_of_pairwise _ _ (sortByKey_pairwise _ _)

theorem filter_insertByKey_eq (key : Skill → List Char) (x : Skill) (l : List Skill)
    (k : List Char) (hk : key x = k) :
    (insertByKey key x l).filter (fun s => decide (key s = k)) =
      x :: l.filter (fun s => decide (key s = k)) := by
  induction l with
  | nil => simp [insertByKey, hk]
  | cons y ys ih =>
    by_cases hxy : lexLe (key x) (key y) = true
    · simp only [insertByKey, if_pos hxy, List.filter_cons]
      rw [if_pos (by simp [hk])]
    · have hy : ¬ key y = k := by
        intro he
        exact hxy (by rw [he, ← hk]; exact lexLe_refl _)
      simp only [insertByKey, if_neg hxy, List.filter_cons]
      rw [if_neg (by simp [hy]), ih, if_neg (by simp [hy])]

theorem filter_insertByKey_ne (key : Skill → List Char) (x : Skill) (l : List Skill)
    (k : List Char) (hk : ¬ key x = k) :
    (insertByKey key x l).filter (fun s => decide (key s = k)) =
      l.filter (fun s => decide (key s = k)) := by
  induction l with
  | nil => simp [insertByKey, hk]
  | cons y ys ih =>
    by_cases hxy : lexLe (key x) (key y) = true
    · simp only [insertByKey, if_pos hxy, List.filter_cons]
      rw [if_neg (by simp [hk])]
    · simp only [insertByKey, if_neg hxy, List.filter_cons]
      rw [ih]

theorem sortByKey_filter (key : Skill → List Char) (l : List Skill) (k : List Char) :
    (sortByKey key l).filter (fun s => decide (key s = k)) =
      l.filter (fun s => decide (key s = k)) := by
  induction l with
  | nil => rfl
  | cons x xs ih =>
    by_cases hk : key x = k
    · rw [sortByKey, filter_insertByKey_eq key x _ k hk, ih, List.filter_cons,
        if_pos (by simp [hk])]
    · rw [sortByKey, filter_insertByKey_ne key x _ k hk, ih, List.filter_cons,
        if_neg (by simp [hk])]

/-! ### Helper lemmas about the record-building loop -/

theorem buildLoop_eq (files : List (String × Fm)) :
    buildLoop files = ((files.filter (fun f => passKeys f.2)).map mkSkill, files.map fileDiag) := by
  induction files with
  | nil => rfl
  | cons file files ih =>
    by_cases h : passKeys file.2 = true
    · simp [buildLoop, ih, h, fileDiag, List.filter_cons]
    · simp [buildLoop, ih, h, fileDiag, List.filter_cons]

/-! ### Helper lemmas about substring containment and pipe escaping -/

theorem leadsList_iff (n : List Char) : ∀ h : List Char,
    leadsList n h = true ↔ ∃ post, h = n ++ post := by
  induction n with
  | nil =>
    intro h
    simp [leadsList]
  | cons a as ih =>
    intro h
    cases h with
    | nil =>
      simp [leadsList]
    | cons b bs =>
      simp only [leadsList, Bool.and_eq_true, beq_iff_eq, ih]
      constructor
      · rintro ⟨rfl, post, rfl⟩
        exact ⟨post, rfl⟩
      · rintro ⟨post, he⟩
        injection he with h1 h2
        exact ⟨h1.symm, post, h2⟩

theorem isSubstr_iff (n : List Char) : ∀ h : List Char,
    isSubstr n h = true ↔ ∃ pre post, h = pre ++ (n ++ post) := by
  intro h
  induction h with
  | nil =>
    rw [isSubstr, leadsList_iff]
    constructor
    · rintro ⟨post, hp⟩
      exact ⟨[], post, hp⟩
    · rintro ⟨pre, post, hp⟩
      rcases List.append_eq_nil.mp hp.symm with ⟨rfl, h2⟩
      exact ⟨post, by simpa using hp⟩
  | cons c cs ih =>
    simp only [isSubstr, Bool.or_eq_true, leadsList_iff, ih]
    constructor
    · rintro (⟨post, hp⟩ | ⟨pre, post, hp⟩)
      · exact ⟨[], post, by simpa using hp⟩
      · exact ⟨c :: pre, post, by rw [List.cons_append, hp]⟩
    · rintro ⟨pre, post, he⟩
      cases pre with
      | nil => exact Or.inl ⟨post, by simpa using he⟩
      | cons d pre =>
        injection he with h1 h2
        exact Or.inr ⟨pre, post, h2⟩

theorem escapePipes_eq_spec (cs : List Char) : escapePipes cs = escapePipesSpec cs := by
  induction cs with
  | nil => rfl
  | cons c cs ih =>
    by_cases h : (c == '|') = true
    · simp only [escapePipes, escapePipesSpec, List.flatMap_cons, if_pos h] at ih ⊢
      rw [ih]
      rfl
    · simp only [escapePipes, escapePipesSpec, List.flatMap_cons, if_neg h] at ih ⊢
      rw [ih]
      rfl

/-! ### Helper lemmas about the frontmatter matcher -/

theorem wsNlSplits_sound (t : List Char) :
    ∀ u ∈ wsNlSplits t, ∃ w, allWs w ∧ t = w ++ '\n' :: u := by
  induction t with
  | nil =>
    intro u hu
    simp [wsNlSplits] at hu
  | cons c cs ih =>
    intro u hu
    rw [wsNlSplits] at hu
    split at hu
    case isTrue h =>
      have hc : c = '\n' := by simpa using h
      subst hc
      rcases List.mem_append.mp hu with hu | hu
      · obtain ⟨w, hw, rfl⟩ := ih u hu
        refine ⟨'\n' :: w, ?_, rfl⟩
        intro x hx
        rcases List.mem_cons.mp hx with rfl | hx
        · decide
        · exact hw x hx
      · rw [List.mem_singleton] at hu
        subst hu
        exact ⟨[], fun x hx => absurd hx (List.not_mem_nil x), rfl⟩
    case isFalse h =>
      split at hu
      case isTrue h2 =>
        obtain ⟨w, hw, rfl⟩ := ih u hu
        refine ⟨c :: w, ?_, rfl⟩
        intro x hx
        rcases List.mem_cons.mp hx with rfl | hx
        · exact h2
        · exact hw x hx
      case isFalse h2 => exact absurd hu (List.not_mem_nil u)

theorem wsNlSplits_mem (u : List Char) :
    ∀ w : List Char, allWs w → u ∈ wsNlSplits (w ++ '\n' :: u) := by
  intro w
  induction w with
  | nil =>
    intro _
    simp [wsNlSplits]
  | cons c w ih =>
    intro hw
    have hc := hw c (List.mem_cons_self c w)
    have hw2 : allWs w := fun x hx => hw x (List.mem_cons_of_mem c hx)
    rw [List.cons_append, wsNlSplits]
    by_cases h : (c == '\n') = true
    · rw [if_pos h]
      exact List.mem_append_left _ (ih hw2)
    · rw [if_neg h, if_pos hc]
      exact ih hw2

theorem closeHere_sound : ∀ {v : List Char}, closeHere v = true →
    ∃ rest, v = '\n' :: '-' :: '-' :: '-' :: rest ∧ wsNlSplits rest ≠ [] := by
  intro v h
  rcases v with _ | ⟨a, _ | ⟨b, _ | ⟨c, _ | ⟨d, rest⟩⟩⟩⟩
  · simp [closeHere] at h
  · simp [closeHere] at h
  · simp [closeHere] at h
  · simp [closeHere] at h
  · rw [closeHere] at h
    simp only [Bool.and_eq_true, beq_iff_eq, Bool.not_eq_true'] at h
    obtain ⟨⟨⟨⟨ha, hb⟩, hc⟩, hd⟩, hne⟩ := h
    subst ha; subst hb; subst hc; subst hd
    refine ⟨rest, rfl, fun hnil => ?_⟩
    rw [hnil] at hne
    simp at hne

theorem closeHere_of (rest : List Char) (h : wsNlSplits rest ≠ []) :
    closeHere ('\n' :: '-' :: '-' :: '-' :: rest) = true := by
  simp [closeHere, List.isEmpty_iff, h]

theorem lazyGroup_sound (u : List Char) : ∀ g, lazyGroup u = some g →
    ∃ rest, u = g ++ '\n' :: '-' :: '-' :: '-' :: rest ∧ wsNlSplits rest ≠ [] := by
  induction u with
  | nil =>
    intro g h
    simp [lazyGroup] at h
  | cons c cs ih =>
    intro g h
    rw [lazyGroup] at h
    split at h
    case isTrue hclose =>
      obtain ⟨rest, heq, hne⟩ := closeHere_sound hclose
      injection h with h
      subst h
      exact ⟨rest, by simpa using heq, hne⟩
    case isFalse hclose =>
      rcases Option.map_eq_some'.mp h with ⟨g2, hg2, rfl⟩
      obtain ⟨rest, rfl, hne⟩ := ih g2 hg2
      exact ⟨rest, rfl, hne⟩

theorem lazyGroup_isSome (tail : List Char) (htail : closeHere tail = true) :
    ∀ g : List Char, (lazyGroup (g ++ tail)).isSome = true := by
  intro g
  induction g with
  | nil =>
    obtain ⟨rest, rfl, -⟩ := closeHere_sound htail
    rw [List.nil_append, lazyGroup, if_pos htail]
    rfl
  | cons c g ih =>
    rw [List.cons_append, lazyGroup]
    by_cases h : closeHere (c :: (g ++ tail)) = true
    · rw [if_pos h]
      rfl
    · rw [if_neg h]
      simpa using ih

theorem firstSome_sound (f : List Char → Option (List Char)) :
    ∀ (us : List (List Char)) (g : List Char), firstSome f us = some g →
      ∃ u ∈ us, f u = some g := by
  intro us
  induction us with
  | nil =>
    intro g h
    simp [firstSome] at h
  | cons u us ih =>
    intro g h
    rw [firstSome] at h
    cases hf : f u with
    | some g2 =>
      rw [hf] at h
      simp only at h
      injection h with h
      subst h
      exact ⟨u, List.mem_cons_self u us, hf⟩
    | none =>
      rw [hf] at h
      simp only at h
      obtain ⟨u2, hu2, hfu2⟩ := ih g h
      exact ⟨u2, List.mem_cons_of_mem u hu2, hfu2⟩

theorem firstSome_isSome (f : List Char → Option (List Char)) :
    ∀ (us : List (List Char)) (u : List Char), u ∈ us → (f u).isSome = true →
      (firstSome f us).isSome = true := by
  intro us
  induction us with
  | nil =>
    intro u hu _
    simp at hu
  | cons v vs ih =>
    intro u hu hf
    rw [firstSome]
    cases hv : f v with
    | some g => simp
    | none =>
      rcases List.mem_cons.mp hu with rfl | hu2
      · rw [hv] at hf
        simp at hf
      · simpa using ih u hu2 hf

/-! ### The claims -/

/-- C1 counterexample: the claim requires non-empty "name" and
"description" values for a row to appear, but `main` only tests key
membership.  A frontmatter mapping with `name` present and empty still
produces a record (with empty name), a "Found skill" diagnostic rather
than a warning, and a written README. -/
theorem c1_counterexample :
    passKeysNonEmpty [("name", ""), ("description", "d")] = false ∧
    (buildLoop [("a/SKILL.md", [("name", ""), ("description", "d")])]).1 =
      [{ name := "", description := "d", path := "a/SKILL.md" }] ∧
    (buildLoop [("a/SKILL.md", [("name", ""), ("description", "d")])]).2 =
      ["Found skill: "] ∧
    ((mainRun [("a/SKILL.md", [("name", ""), ("description", "d")])] "T").2).isSome = true :=
  ⟨rfl, rfl, rfl, rfl⟩

/-- C1 (amended): a skill record appears as a row in the generated
output table if and only if its file's decoded frontmatter mapping
contains the keys "name" and "description" (mere presence; the values
may be empty); when either key is absent the file is excluded and
exactly one diagnostic naming the file is emitted, the run continuing
over the remaining files. -/
theorem c1_amended_theorem (files : List (String × Fm)) (ts : String) :
    (buildLoop files).1 = (files.filter (fun f => passKeys f.2)).map mkSkill ∧
    (buildLoop files).2 = files.map fileDiag ∧
    (mainRun files ts).2 =
      (if files.isEmpty || ((files.filter (fun f => passKeys f.2)).map mkSkill).isEmpty then none
       else some ((generate_readme ((files.filter (fun f => passKeys f.2)).map mkSkill) ts).1)) := by
  refine ⟨by rw [buildLoop_eq], by rw [buildLoop_eq], ?_⟩
  · simp only [mainRun, buildLoop_eq]
    by_cases h1 : files.isEmpty = true
    · simp [h1]
    · by_cases h2 : ((files.filter (fun f => passKeys f.2)).map mkSkill).isEmpty = true
      · simp [h1, h2]
      · simp [h1, h2]

/-- C2: the classifier returns true exactly when the description,
lowered, contains "always", "automatically" or "every" as a substring
(false in particular for the empty description), and the Command cell
of the rendered row is exactly "Auto-invoked" when the classifier is
true and otherwise the character "/" followed by the unescaped name. -/
theorem c2_theorem (s : Skill) :
    (is_auto_invoked s.description = true ↔
      (∃ pre post, (lowerStr s.description).data = pre ++ ("always".data ++ post)) ∨
      (∃ pre post, (lowerStr s.description).data = pre ++ ("automatically".data ++ post)) ∨
      (∃ pre post, (lowerStr s.description).data = pre ++ ("every".data ++ post))) ∧
    renderRow s = "| " ++ ("[" ++ s.name ++ "](" ++ s.path ++ ")") ++ " | " ++
      String.mk (escapePipes s.description.data) ++ " | " ++
      (if is_auto_invoked s.description then "Auto-invoked" else "/" ++ s.name) ++ " |\n" := by
  constructor
  · rw [← isSubstr_iff, ← isSubstr_iff, ← isSubstr_iff]
    by_cases hd : s.description = ""
    · rw [hd]
      decide
    · simp [is_auto_invoked, hd, keywords]
  · rfl

/-- C3: in every rendered row the Description cell is the record's
description with every pipe replaced by backslash-pipe and no other
character altered (each non-pipe character maps to itself). -/
theorem c3_theorem :
    (∀ cs : List Char, escapePipes cs = escapePipesSpec cs) ∧
    (∀ s : Skill, renderRow s = "| " ++ ("[" ++ s.name ++ "](" ++ s.path ++ ")") ++ " | " ++
      String.mk (escapePipesSpec s.description.data) ++ " | " ++
      generate_command s.name s.description ++ " |\n") := by
  refine ⟨escapePipes_eq_spec, fun s => ?_⟩
  simp only [renderRow, escapePipes_eq_spec]

/-- C4: for every input order, the rendered document consists of the
header, then one row per record in the order of the sorted list, then
the footer; the sorted list is ascending in the case-folded names, is a
permutation of the input, and is stable: the records holding any fixed
case-folded name appear in exactly their input order. -/
theorem c4_theorem (skills : List Skill) (ts : String) :
    (sortSkills skills).Pairwise
      (fun a b => lexLe (lowerStr a.name).data (lowerStr b.name).data = true) ∧
    (sortSkills skills).Perm skills ∧
    (∀ k : List Char,
      (sortSkills skills).filter (fun s => decide ((lowerStr s.name).data = k)) =
        skills.filter (fun s => decide ((lowerStr s.name).data = k))) ∧
    (generate_readme skills ts).1 =
      (sortSkills skills).foldl (fun readme skill => readme ++ renderRow skill) readmeHeader ++
        footerString ts :=
  ⟨sortByKey_pairwise _ _, sortByKey_perm _ _, fun k => sortByKey_filter _ _ k, rfl⟩

/-- C5: with no discovered skill files, or with no record passing the
key filter, `main` prints the corresponding "no skills" diagnostic,
writes nothing (the write component is `none`, so any previous
README.md is untouched), and returns normally. -/
theorem c5_theorem (files : List (String × Fm)) (ts : String) :
    (files = [] → mainRun files ts = (["No skill files found."], none)) ∧
    ((buildLoop files).1 = [] → files ≠ [] →
      mainRun files ts = ((buildLoop files).2 ++ ["No valid skills found."], none)) := by
  constructor
  · rintro rfl
    rfl
  · intro h1 h2
    have he : files.isEmpty = false := by simpa [List.isEmpty_iff] using h2
    have hb : (buildLoop files).1.isEmpty = true := by simp [h1]
    simp [mainRun, he, hb]

/-- C5 witness: both no-write branches at concrete inputs. -/
theorem c5_witness :
    mainRun ([] : List (String × Fm)) "2025-01-01 00:00:00 UTC" =
      (["No skill files found."], none) ∧
    mainRun [("x/SKILL.md", ([] : Fm))] "2025-01-01 00:00:00 UTC" =
      (["Warning: x/SKILL.md missing name or description in frontmatter",
        "No valid skills found."], none) := by
  constructor
  · exact (c5_theorem [] "2025-01-01 00:00:00 UTC").1 rfl
  · exact ((c5_theorem [("x/SKILL.md", ([] : Fm))] "2025-01-01 00:00:00 UTC").2 rfl
      (by simp)).trans rfl

/-- C6: for every file content the extractor returns an empty mapping,
rather than failing, both when the anchored frontmatter pattern does
not match and when it matches but the decoder raises on the captured
text. -/
theorem c6_theorem (safeLoad : List Char → Except Unit PyValue) (content : List Char) :
    (reMatchFrontmatter content = none →
      parse_frontmatter safeLoad content = PyValue.dict []) ∧
    (∀ g e, reMatchFrontmatter content = some g → safeLoad g = Except.error e →
      parse_frontmatter safeLoad content = PyValue.dict []) := by
  constructor
  · intro h
    simp [parse_frontmatter, h]
  · intro g e h1 h2
    simp [parse_frontmatter, h1, h2]

/-- C6 witness: a content with no frontmatter block, and a content
whose block makes the decoder raise; both yield the empty mapping. -/
theorem c6_witness :
    parse_frontmatter (fun _ => Except.ok (PyValue.dict [("name", PyValue.str "x")]))
      "no frontmatter here".data = PyValue.dict [] ∧
    parse_frontmatter (fun _ => Except.error ()) "---\nname: [unclosed\n---\n".data =
      PyValue.dict [] := by
  constructor
  · exact (c6_theorem (fun _ => Except.ok (PyValue.dict [("name", PyValue.str "x")]))
      "no frontmatter here".data).1 rfl
  · exact (c6_theorem (fun _ => Except.error ()) "---\nname: [unclosed\n---\n".data).2
      "name: [unclosed".data () rfl rfl

/-- C7 counterexample: the claim allows whitespace before the first
marker line, but the anchored regex requires the content to begin with
the three hyphens: a content starting with a space satisfies the
claimed shape yet the matcher finds nothing. -/
theorem c7_counterexample :
    claimedLocate (" ---\na\n---\n").data ∧
    reMatchFrontmatter (" ---\na\n---\n").data = none := by
  constructor
  · refine ⟨[' '], [], ['a'], [], [], ?_, ?_, ?_, by decide⟩
    · intro c hc
      rw [List.mem_singleton] at hc
      subst hc
      decide
    · intro c hc
      exact absurd hc (List.not_mem_nil c)
    · intro c hc
      exact absurd hc (List.not_mem_nil c)
  · rfl

/-- C7 (amended): the extractor locates a frontmatter block exactly
when the content starts, with no preceding whitespace, with a line
consisting of three hyphens (trailing whitespace on the marker lines
allowed), followed by content, followed by another such line terminated
by a newline present in the content. -/
theorem c7_amended_theorem (cs : List Char) :
    (reMatchFrontmatter cs).isSome = true ↔ matchedSpec cs := by
  constructor
  · intro h
    rcases Option.isSome_iff_exists.mp h with ⟨g, hg⟩
    rcases cs with _ | ⟨a, _ | ⟨b, _ | ⟨c, t⟩⟩⟩
    · simp [reMatchFrontmatter] at hg
    · simp [reMatchFrontmatter] at hg
    · simp [reMatchFrontmatter] at hg
    · rw [reMatchFrontmatter] at hg
      split at hg
      case isFalse => simp at hg
      case isTrue hcond =>
        simp only [Bool.and_eq_true, beq_iff_eq] at hcond
        obtain ⟨⟨ha, hb⟩, hc⟩ := hcond
        subst ha; subst hb; subst hc
        obtain ⟨u, hu, hlz⟩ := firstSome_sound lazyGroup (wsNlSplits t) g hg
        obtain ⟨w1, hw1, rfl⟩ := wsNlSplits_sound t u hu
        obtain ⟨rest, rfl, hne⟩ := lazyGroup_sound u g hlz
        obtain ⟨u2, hu2⟩ := List.exists_mem_of_ne_nil _ hne
        obtain ⟨w2, hw2, rfl⟩ := wsNlSplits_sound rest u2 hu2
        exact ⟨w1, g, w2, u2, hw1, hw2, rfl⟩
  · rintro ⟨w1, g, w2, rest, hw1, hw2, rfl⟩
    rw [reMatchFrontmatter, if_pos (by decide)]
    have hclose : closeHere ('\n' :: '-' :: '-' :: '-' :: (w2 ++ '\n' :: rest)) = true :=
      closeHere_of _ (List.ne_nil_of_mem (wsNlSplits_mem rest w2 hw2))
    exact firstSome_isSome lazyGroup _ _
      (wsNlSplits_mem (g ++ '\n' :: '-' :: '-' :: '-' :: (w2 ++ '\n' :: rest)) w1 hw1)
      (lazyGroup_isSome _ hclose g)

/-- C8: the rendered document is a body depending only on the records,
followed by the footer containing the timestamp; two runs with the same
records, and even a second run reusing the list the first run sorted in
place, produce the identical body and differ only in the footer's
timestamp. -/
theorem c8_theorem (skills : List Skill) (ts1 ts2 : String) :
    ∃ body : String,
      (generate_readme skills ts1).1 = body ++ footerString ts1 ∧
      (generate_readme skills ts2).1 = body ++ footerString ts2 ∧
      (generate_readme (generate_readme skills ts1).2 ts2).1 = body ++ footerString ts2 := by
  refine ⟨(sortSkills skills).foldl (fun readme skill => readme ++ renderRow skill) readmeHeader,
    rfl, rfl, ?_⟩
  show (generate_readme (sortSkills skills) ts2).1 = _
  simp only [generate_readme, sortSkills_idem]

/-- C9: the extractor does not guarantee a mapping: a successfully
decoded truthy value is returned unchanged whatever its shape, and only
falsy decode results are replaced by the empty mapping; concretely a
decoded list or plain string is passed through (and is not the empty
dict), while a decoded None collapses to the empty dict. -/
theorem c9_theorem :
    (∀ (safeLoad : List Char → Except Unit PyValue) (content g : List Char) (v : PyValue),
      reMatchFrontmatter content = some g → safeLoad g = Except.ok v →
      parse_frontmatter safeLoad content = (if v.truthy then v else PyValue.dict [])) ∧
    parse_frontmatter (fun _ => Except.ok (PyValue.list [PyValue.str "a"])) "---\n- a\n---\n".data =
      PyValue.list [PyValue.str "a"] ∧
    PyValue.list [PyValue.str "a"] ≠ PyValue.dict [] ∧
    parse_frontmatter (fun _ => Except.ok (PyValue.str "plain")) "---\nplain\n---\n".data =
      PyValue.str "plain" ∧
    parse_frontmatter (fun _ => Except.ok PyValue.pynone) "---\nkey:\n---\n".data =
      PyValue.dict [] := by
  refine ⟨?_, rfl, ?_, rfl, rfl⟩
  · intro safeLoad content g v h1 h2
    simp [parse_frontmatter, h1, h2]
  · intro h
    exact PyValue.noConfusion h

/-- C9 witness: the universally quantified part applied at a concrete
content and decoder. -/
theorem c9_witness :
    parse_frontmatter (fun _ => Except.ok (PyValue.list [PyValue.str "a"])) "---\n- a\n---\n".data =
      (if (PyValue.list [PyValue.str "a"]).truthy then PyValue.list [PyValue.str "a"]
       else PyValue.dict []) :=
  c9_theorem.1 (fun _ => Except.ok (PyValue.list [PyValue.str "a"])) "---\n- a\n---\n".data
    "- a".data (PyValue.list [PyValue.str "a"]) rfl rfl

/-- C10: `generate_readme` reorders the caller's list in place: after
the call the list holds exactly the case-insensitively sorted records
(not a copy left unsorted), and on an unsorted input the post-call list
differs from the input. -/
theorem c10_theorem :
    (∀ (skills : List Skill) (ts : String), (generate_readme skills ts).2 = sortSkills skills) ∧
    (generate_readme [⟨"b", "x", "p1"⟩, ⟨"a", "y", "p2"⟩] "T").2 ≠
      [⟨"b", "x", "p1"⟩, ⟨"a", "y", "p2"⟩] := by
  refine ⟨fun skills ts => rfl, ?_⟩
  decide

end UpdateReadme
